import Mathlib

/-!
Verification of the secache library: a sampling-eviction cache built on a
key-value map (`randmap.RandMap`) that supports O(1) uniform random sampling
of entries.

The Go maps of `RandMap` (`kv : map[K]V`, `ik : map[int]K`, `ki : map[K]int`)
are embedded as functions into `Option`; the stored `len` field mirrors Go's
`len(m.kv)` (it changes exactly when a key is inserted into or removed from
`kv`).  A Go lookup of an absent key yields the zero value of the type; this
is embedded as `Option.getD default` with an `Inhabited` instance.  The
process-wide random source (`rand.IntN(l)`, uniform on `[0, l)`) is embedded
by passing the drawn integer explicitly: `GetRandom` receives a natural
number `r` and uses `r % len`, so that every natural number corresponds to a
legal draw and every legal draw `< len` is represented by itself.
-/

/-- The `randmap.RandMap` struct: the value store `kv`, the slot-index-to-key
map `ik`, the key-to-slot-index map `ki`, and the (derived, here explicitly
carried) size of `kv`. -/
structure RandMap (K V : Type) where
  kv : K → Option V
  ik : Nat → Option K
  ki : K → Option Nat
  len : Nat

namespace RandMap

variable {K V : Type} [DecidableEq K] [Inhabited K]

/-- `randmap.Make`: the empty map. -/
def Make : RandMap K V :=
  { kv := fun _ => none, ik := fun _ => none, ki := fun _ => none, len := 0 }

/-- `randmap.Get`: plain lookup in `kv`. -/
def Get (m : RandMap K V) (key : K) : Option V :=
  m.kv key

/-- `randmap.Set`: overwrite in place if the key is present; otherwise insert
and append the key at the fresh slot index `len(kv)` (the new length minus
one), updating both index maps. -/
def Set (m : RandMap K V) (key : K) (item : V) : RandMap K V :=
  match m.kv key with
  | some _ =>
    { m with kv := fun k => if k = key then some item else m.kv k }
  | none =>
    { kv := fun k => if k = key then some item else m.kv k,
      ik := fun i => if i = m.len then some key else m.ik i,
      ki := fun k => if k = key then some m.len else m.ki k,
      len := m.len + 1 }

/-- `randmap.Delete`: no-op when `ki` has no slot for the key; otherwise
remove the key from `kv` and `ki` and either drop the last slot (when the
key occupied it) or relocate the last slot's key into the freed slot.
`m.ik[oldLen-1]` with Go's zero-value-on-miss becomes `Option.getD default`. -/
def Delete (m : RandMap K V) (key : K) : RandMap K V :=
  match m.ki key with
  | none => m
  | some deletedIdx =>
    let kvNew : K → Option V := fun k => if k = key then none else m.kv k
    let lenNew : Nat := if (m.kv key).isSome then m.len - 1 else m.len
    if deletedIdx = m.len - 1 then
      { kv := kvNew,
        ik := fun i => if i = deletedIdx then none else m.ik i,
        ki := fun k => if k = key then none else m.ki k,
        len := lenNew }
    else
      let relocatedKey : K := (m.ik (m.len - 1)).getD default
      { kv := kvNew,
        ik := fun i => if i = m.len - 1 then none
                       else if i = deletedIdx then some relocatedKey else m.ik i,
        ki := fun k => if k = relocatedKey then some deletedIdx
                       else if k = key then none else m.ki k,
        len := lenNew }

/-- `randmap.GetRandom`: empty map reports not found; otherwise draw a
uniform index in `[0, len)` (the draw `rand.IntN(l)` is embedded as `r % len`
for an explicit seed `r`), resolve it through `ik`, and look the resulting
key up in `kv`.  The key is returned alongside the value, as used by the
cache's eviction loop (`ck, cv, ok := m.GetRandom()`). -/
def GetRandom (m : RandMap K V) (r : Nat) : Option (K × V) :=
  if m.len = 0 then none
  else
    let key : K := (m.ik (r % m.len)).getD default
    match m.kv key with
    | some v => some (key, v)
    | none => none

/-- `randmap.Len`: the number of key-value pairs (`len(m.kv)`). -/
def Len (m : RandMap K V) : Nat :=
  m.len

end RandMap

/-- A single mutating map operation, used to describe arbitrary
insertion/deletion histories. -/
inductive MapOp (K V : Type) where
  | set (key : K) (val : V)
  | del (key : K)

variable {K V : Type} [DecidableEq K] [Inhabited K]

/-- Apply one operation to a `RandMap`. -/
def applyOp (m : RandMap K V) : MapOp K V → RandMap K V
  | MapOp.set k v => m.Set k v
  | MapOp.del k => m.Delete k

/-- Apply a finite sequence of operations, left to right. -/
def applyOps (ops : List (MapOp K V)) (m : RandMap K V) : RandMap K V :=
  ops.foldl applyOp m

/-- `randmap.Wrap`: index and wrap an existing map, given as a list of
key-value pairs in the (arbitrary) order Go's map iteration presents them;
each key is assigned the next sequential slot index starting from 0, exactly
as `Set` does on an absent key. -/
def RandMap.Wrap (init : List (K × V)) : RandMap K V :=
  applyOps (init.map (fun p => MapOp.set p.1 p.2)) RandMap.Make

/-- The index invariants of the spec: I1 (slots in use are exactly
`{0, …, len-1}` and `ik`/`ki` are exact inverses) and I2 (the domains of
`kv` and `ki` coincide). -/
def RandMapInv (m : RandMap K V) : Prop :=
  (∀ i, (m.ik i).isSome ↔ i < m.len) ∧
  (∀ i k, m.ik i = some k → m.ki k = some i) ∧
  (∀ k i, m.ki k = some i → m.ik i = some k) ∧
  (∀ k, (m.kv k).isSome ↔ (m.ki k).isSome)

/-- The result of the cache's eviction loop, instrumented with the number of
successful draws, the number of validity-predicate invocations, the drawn
entries, and the keys deleted (all side effects of the loop body). -/
structure EvictResult (K V : Type) where
  m : RandMap K V
  draws : Nat
  fcalls : Nat
  drawn : List (K × V)
  deleted : List K

/-- The loop body of `Cache.SetLocked`: up to `rs.length` eviction attempts;
each attempt draws a random entry (breaking out when the map is empty),
tests it with the validity predicate and deletes it when invalid. -/
def evictLoop (f : K → V → Bool) (m : RandMap K V) (rs : List Nat) : EvictResult K V :=
  match rs with
  | [] => ⟨m, 0, 0, [], []⟩
  | r :: rest =>
    match m.GetRandom r with
    | none => ⟨m, 0, 0, [], []⟩
    | some (ck, cv) =>
      if f ck cv then
        let res := evictLoop f m rest
        ⟨res.m, res.draws + 1, res.fcalls + 1, (ck, cv) :: res.drawn, res.deleted⟩
      else
        let res := evictLoop f (m.Delete ck) rest
        ⟨res.m, res.draws + 1, res.fcalls + 1, (ck, cv) :: res.drawn, ck :: res.deleted⟩

/-- The `secache.Cache` struct: the backing map, the validity function and
the eviction attempt count `n` (a Go `int`, hence `Int`). The mutex is a
concurrency artifact with no counterpart in this sequential embedding. -/
structure Cache (K V : Type) where
  m : RandMap K V
  f : K → V → Bool
  n : Int

/-- `secache.MinN`: the minimal number of sampling evictions per addition. -/
def MinN : Int := 2

namespace Cache

/-- `secache.New`: construct a cache with an empty map and `n` clamped from
below to `MinN`. -/
def New (n : Int) (f : K → V → Bool) : Cache K V :=
  { m := RandMap.Make, n := max n MinN, f := f }

/-- `secache.Cache.Flush`: replace the backing map with an empty one. -/
def Flush (c : Cache K V) : Cache K V :=
  { c with m := RandMap.Make }

/-- `secache.Cache.Len`. -/
def Len (c : Cache K V) : Nat :=
  c.m.Len

/-- `secache.Cache.Get`: raw lookup, valid or not. -/
def Get (c : Cache K V) (key : K) : Option V :=
  c.m.Get key

/-- `secache.Cache.SetLocked`: set the key and, when the length grew (a true
insertion), run the eviction loop with the validity function; `rs` is the
stream of random draws consumed by the loop (of length `n` at call sites). -/
def SetLocked (c : Cache K V) (m : RandMap K V) (key : K) (value : V)
    (rs : List Nat) : EvictResult K V :=
  let oldLen := m.Len
  let m1 := m.Set key value
  if m1.Len > oldLen then evictLoop c.f m1 rs else ⟨m1, 0, 0, [], []⟩

/-- `secache.Cache.Set`: add or update, then sampling eviction on true
insertion. -/
def Set (c : Cache K V) (key : K) (value : V) (rs : List Nat) : Cache K V :=
  { c with m := (c.SetLocked c.m key value rs).m }

/-- `secache.Cache.GetValidOrDelete`: fetch; report not found when absent;
delete and report not found when present but invalid; otherwise return the
value.  The returned pair is (result, cache state after the call). -/
def GetValidOrDelete (c : Cache K V) (key : K) : Option V × Cache K V :=
  match c.m.Get key with
  | none => (none, c)
  | some v =>
    if c.f key v then (some v, c)
    else (none, { c with m := c.m.Delete key })

/-- `secache.Cache.GetOrCreate`: fetch; when absent or invalid, invoke the
factory (modelled by its produced value `newVal`; the third component counts
its invocations) and store via `SetLocked`; return the fetched or created
value. -/
def GetOrCreate (c : Cache K V) (key : K) (newVal : V) (rs : List Nat) :
    V × Cache K V × Nat :=
  match c.m.Get key with
  | some v =>
    if c.f key v then (v, c, 0)
    else (newVal, { c with m := (c.SetLocked c.m key newVal rs).m }, 1)
  | none => (newVal, { c with m := (c.SetLocked c.m key newVal rs).m }, 1)

end Cache

/-- The spec's description of lookup after a history of operations: the most
recently set value for the key, unless a later delete removed it.
Modelled from the spec's words for comparison with the implementation. -/
def specLookup (ops : List (MapOp K V)) (k : K) : Option V :=
  ops.foldl
    (fun acc op =>
      match op with
      | MapOp.set k2 v => if k2 = k then some v else acc
      | MapOp.del k2 => if k2 = k then none else acc)
    none

/-! ### Characterization lemmas for the map operations -/

theorem Set_present (m : RandMap K V) (key : K) (v w : V) (h : m.kv key = some w) :
    m.Set key v = { m with kv := fun k => if k = key then some v else m.kv k } := by
  unfold RandMap.Set
  rw [h]

theorem Set_absent (m : RandMap K V) (key : K) (v : V) (h : m.kv key = none) :
    m.Set key v =
      { kv := fun k => if k = key then some v else m.kv k,
        ik := fun i => if i = m.len then some key else m.ik i,
        ki := fun k => if k = key then some m.len else m.ki k,
        len := m.len + 1 } := by
  unfold RandMap.Set
  rw [h]

theorem Delete_absent (m : RandMap K V) (key : K) (h : m.ki key = none) :
    m.Delete key = m := by
  unfold RandMap.Delete
  rw [h]

theorem Delete_present (m : RandMap K V) (key : K) (d : Nat) (h : m.ki key = some d) :
    m.Delete key =
      if d = m.len - 1 then
        { kv := fun k => if k = key then none else m.kv k,
          ik := fun i => if i = d then none else m.ik i,
          ki := fun k => if k = key then none else m.ki k,
          len := if (m.kv key).isSome then m.len - 1 else m.len }
      else
        { kv := fun k => if k = key then none else m.kv k,
          ik := fun i => if i = m.len - 1 then none
                         else if i = d then some ((m.ik (m.len - 1)).getD default)
                         else m.ik i,
          ki := fun k => if k = (m.ik (m.len - 1)).getD default then some d
                         else if k = key then none else m.ki k,
          len := if (m.kv key).isSome then m.len - 1 else m.len } := by
  unfold RandMap.Delete
  rw [h]

theorem kv_Set (m : RandMap K V) (key : K) (v : V) (k : K) :
    (m.Set key v).kv k = if k = key then some v else m.kv k := by
  cases h : m.kv key with
  | some w => rw [Set_present m key v w h]
  | none => rw [Set_absent m key v h]

/-! ### Invariant preservation -/

theorem inv_Make : RandMapInv (RandMap.Make : RandMap K V) := by
  refine ⟨?_, ?_, ?_, ?_⟩ <;> simp [RandMap.Make, RandMapInv]

theorem inv_Set (m : RandMap K V) (key : K) (v : V) (h : RandMapInv m) :
    RandMapInv (m.Set key v) := by
  obtain ⟨h1, h2, h3, h4⟩ := h
  cases hkv : m.kv key with
  | some w =>
    rw [Set_present m key v w hkv]
    refine ⟨h1, h2, h3, ?_⟩
    intro k
    by_cases hk : k = key
    · subst hk
      simp only [if_pos rfl, Option.isSome_some, true_iff]
      rw [← h4, hkv]
      rfl
    · simp only [if_neg hk]
      exact h4 k
  | none =>
    rw [Set_absent m key v hkv]
    dsimp only [RandMapInv]
    refine ⟨?_, ?_, ?_, ?_⟩
    · intro i
      by_cases hi : i = m.len
      · simp only [if_pos hi, Option.isSome_some, true_iff]
        omega
      · simp only [if_neg hi]
        rw [h1 i]
        omega
    · intro i k hik
      by_cases hi : i = m.len
      · rw [if_pos hi] at hik
        injection hik with hk
        subst hk
        rw [if_pos rfl, hi]
      · rw [if_neg hi] at hik
        have hkik := h2 i k hik
        have hkne : k ≠ key := by
          intro he
          subst he
          have hs : (m.kv k).isSome := (h4 k).mpr (by simp [hkik])
          rw [hkv] at hs
          simp at hs
        rw [if_neg hkne]
        exact hkik
    · intro k i hk
      by_cases hke : k = key
      · rw [if_pos hke] at hk
        injection hk with hi
        subst hi
        rw [if_pos rfl, hke]
      · rw [if_neg hke] at hk
        have hik := h3 k i hk
        have hi : i < m.len := (h1 i).mp (by simp [hik])
        rw [if_neg (by omega)]
        exact hik
    · intro k
      by_cases hke : k = key <;> simp [hke, h4 k]

theorem inv_Delete (m : RandMap K V) (key : K) (h : RandMapInv m) :
    RandMapInv (m.Delete key) := by
  obtain ⟨h1, h2, h3, h4⟩ := h
  cases hki : m.ki key with
  | none =>
    rw [Delete_absent m key hki]
    exact ⟨h1, h2, h3, h4⟩
  | some d =>
    have hikd : m.ik d = some key := h3 key d hki
    have hdlt : d < m.len := (h1 d).mp (by simp [hikd])
    have hkvs : (m.kv key).isSome := (h4 key).mpr (by simp [hki])
    rw [Delete_present m key d hki]
    by_cases hd : d = m.len - 1
    · subst hd
      rw [if_pos rfl]
      dsimp only [RandMapInv]
      refine ⟨?_, ?_, ?_, ?_⟩
      · intro i
        simp only [hkvs, if_true]
        by_cases hi : i = m.len - 1
        · simp only [if_pos hi, Option.isSome_none]
          constructor
          · intro hcontra
            exact absurd hcontra (by simp)
          · intro hcontra
            omega
        · simp only [if_neg hi]
          rw [h1 i]
          omega
      · intro i k hik
        by_cases hi : i = m.len - 1
        · rw [if_pos hi] at hik
          exact absurd hik (by simp)
        · rw [if_neg hi] at hik
          have hkik := h2 i k hik
          have hkne : k ≠ key := by
            intro he
            subst he
            rw [hki] at hkik
            injection hkik with he2
            exact hi he2.symm
          rw [if_neg hkne]
          exact hkik
      · intro k i hk
        by_cases hke : k = key
        · rw [if_pos hke] at hk
          exact absurd hk (by simp)
        · rw [if_neg hke] at hk
          have hik := h3 k i hk
          have hine : i ≠ m.len - 1 := by
            intro he
            subst he
            rw [hikd] at hik
            injection hik with he2
            exact hke he2.symm
          rw [if_neg hine]
          exact hik
      · intro k
        by_cases hke : k = key <;> simp [hke, h4 k]
    · rw [if_neg hd]
      have hlsome : (m.ik (m.len - 1)).isSome := (h1 (m.len - 1)).mpr (by omega)
      have hikl : m.ik (m.len - 1) = some ((m.ik (m.len - 1)).getD default) := by
        cases hc : m.ik (m.len - 1) with
        | none => rw [hc] at hlsome; simp at hlsome
        | some rk0 => rfl
      have hkirk : m.ki ((m.ik (m.len - 1)).getD default) = some (m.len - 1) :=
        h2 _ _ hikl
      have hrkne : (m.ik (m.len - 1)).getD default ≠ key := by
        intro he
        rw [he, hki] at hkirk
        injection hkirk with he2
        exact hd he2
      dsimp only [RandMapInv]
      refine ⟨?_, ?_, ?_, ?_⟩
      · intro i
        simp only [hkvs, if_true]
        by_cases hi : i = m.len - 1
        · simp only [if_pos hi, Option.isSome_none]
          constructor
          · intro hcontra
            exact absurd hcontra (by simp)
          · intro hcontra
            omega
        · rw [if_neg hi]
          by_cases hid : i = d
          · simp only [if_pos hid, Option.isSome_some, true_iff]
            omega
          · simp only [if_neg hid]
            rw [h1 i]
            omega
      · intro i k hik
        by_cases hi : i = m.len - 1
        · rw [if_pos hi] at hik
          exact absurd hik (by simp)
        · rw [if_neg hi] at hik
          by_cases hid : i = d
          · rw [if_pos hid] at hik
            injection hik with hk
            subst hk
            rw [if_pos rfl, hid]
          · rw [if_neg hid] at hik
            have hkik := h2 i k hik
            have hkrk : k ≠ (m.ik (m.len - 1)).getD default := by
              intro he
              rw [he, hkirk] at hkik
              injection hkik with he2
              exact hi he2.symm
            have hkne : k ≠ key := by
              intro he
              rw [he, hki] at hkik
              injection hkik with he2
              exact hid he2.symm
            rw [if_neg hkrk, if_neg hkne]
            exact hkik
      · intro k i hk
        by_cases hkrk : k = (m.ik (m.len - 1)).getD default
        · rw [if_pos hkrk] at hk
          injection hk with hi
          subst hi
          rw [if_neg hd, if_pos rfl, hkrk]
        · rw [if_neg hkrk] at hk
          by_cases hke : k = key
          · rw [if_pos hke] at hk
            exact absurd hk (by simp)
          · rw [if_neg hke] at hk
            have hik := h3 k i hk
            have hine : i ≠ m.len - 1 := by
              intro he
              subst he
              rw [hikl] at hik
              injection hik with he2
              exact hkrk he2.symm
            have hind : i ≠ d := by
              intro he
              subst he
              rw [hikd] at hik
              injection hik with he2
              exact hke he2.symm
            rw [if_neg hine, if_neg hind]
            exact hik
      · intro k
        by_cases hkrk : k = (m.ik (m.len - 1)).getD default
        · subst hkrk
          simp [hrkne, h4, hkirk]
        · by_cases hke : k = key
          · subst hke
            simp [hkrk]
          · rw [if_neg hkrk, if_neg hke, if_neg hke]
            exact h4 k

theorem inv_applyOp (m : RandMap K V) (op : MapOp K V) (h : RandMapInv m) :
    RandMapInv (applyOp m op) := by
  cases op with
  | set k v => exact inv_Set m k v h
  | del k => exact inv_Delete m k h

theorem inv_applyOps (ops : List (MapOp K V)) (m : RandMap K V) (h : RandMapInv m) :
    RandMapInv (applyOps ops m) := by
  induction ops generalizing m with
  | nil => exact h
  | cons op rest ih => exact ih (applyOp m op) (inv_applyOp m op h)

theorem inv_reachable (ops : List (MapOp K V)) :
    RandMapInv (applyOps ops (RandMap.Make : RandMap K V)) :=
  inv_applyOps ops RandMap.Make inv_Make

theorem inv_Wrap (init : List (K × V)) :
    RandMapInv (RandMap.Wrap init : RandMap K V) :=
  inv_applyOps _ RandMap.Make inv_Make

/-! ### Lookup and sampling lemmas -/

theorem kv_eq_none_of_inv (m : RandMap K V) (h : RandMapInv m) (key : K)
    (hki : m.ki key = none) : m.kv key = none := by
  have hs : ¬(m.kv key).isSome = true := by
    rw [h.2.2.2 key, hki]
    simp
  exact Option.not_isSome_iff_eq_none.mp hs

theorem ki_of_kv (m : RandMap K V) (h : RandMapInv m) (key : K) (v : V)
    (hv : m.kv key = some v) : ∃ d, m.ki key = some d := by
  have hs : (m.ki key).isSome = true := by
    rw [← h.2.2.2 key, hv]
    rfl
  exact Option.isSome_iff_exists.mp hs

theorem kv_Delete_inv (m : RandMap K V) (h : RandMapInv m) (key k : K) :
    (m.Delete key).kv k = if k = key then none else m.kv k := by
  cases hki : m.ki key with
  | none =>
    rw [Delete_absent m key hki]
    by_cases hk : k = key
    · subst hk
      rw [if_pos rfl]
      exact kv_eq_none_of_inv m h k hki
    · rw [if_neg hk]
  | some d =>
    rw [Delete_present m key d hki]
    split <;> rfl

theorem kv_Delete_mono (m : RandMap K V) (key k : K) (w : V)
    (hw : (m.Delete key).kv k = some w) : m.kv k = some w := by
  cases hki : m.ki key with
  | none => rw [Delete_absent m key hki] at hw; exact hw
  | some d =>
    rw [Delete_present m key d hki] at hw
    by_cases hk : k = key
    · subst hk
      rcases Decidable.em (d = m.len - 1) with hd | hd
      · rw [if_pos hd] at hw
        dsimp only at hw
        rw [if_pos rfl] at hw
        exact absurd hw (by simp)
      · rw [if_neg hd] at hw
        dsimp only at hw
        rw [if_pos rfl] at hw
        exact absurd hw (by simp)
    · rcases Decidable.em (d = m.len - 1) with hd | hd
      · rw [if_pos hd] at hw
        dsimp only at hw
        rw [if_neg hk] at hw
        exact hw
      · rw [if_neg hd] at hw
        dsimp only at hw
        rw [if_neg hk] at hw
        exact hw

theorem GetRandom_of_empty (m : RandMap K V) (r : Nat) (h : m.len = 0) :
    m.GetRandom r = none := by
  unfold RandMap.GetRandom
  rw [if_pos h]

theorem GetRandom_of_inv (m : RandMap K V) (h : RandMapInv m) (r : Nat)
    (hr : m.len ≠ 0) :
    ∃ k v, m.GetRandom r = some (k, v) ∧ m.ik (r % m.len) = some k ∧
      m.kv k = some v := by
  obtain ⟨h1, h2, h3, h4⟩ := h
  have hmod : r % m.len < m.len := Nat.mod_lt r (Nat.pos_of_ne_zero hr)
  have hsome : (m.ik (r % m.len)).isSome = true := (h1 _).mpr hmod
  obtain ⟨k, hk⟩ := Option.isSome_iff_exists.mp hsome
  have hkik : m.ki k = some (r % m.len) := h2 _ _ hk
  have hkv : (m.kv k).isSome = true := (h4 k).mpr (by rw [hkik]; rfl)
  obtain ⟨v, hv⟩ := Option.isSome_iff_exists.mp hkv
  refine ⟨k, v, ?_, hk, hv⟩
  unfold RandMap.GetRandom
  rw [if_neg hr]
  dsimp only
  rw [hk]
  simp [hv]

theorem GetRandom_none_iff (m : RandMap K V) (h : RandMapInv m) (r : Nat) :
    m.GetRandom r = none ↔ m.len = 0 := by
  constructor
  · intro hn
    by_contra hne
    obtain ⟨k, v, hkv, -, -⟩ := GetRandom_of_inv m h r hne
    rw [hn] at hkv
    exact absurd hkv (by simp)
  · exact GetRandom_of_empty m r

/-! ### Eviction loop lemmas -/

theorem evictLoop_nil (f : K → V → Bool) (m : RandMap K V) :
    evictLoop f m [] = ⟨m, 0, 0, [], []⟩ := rfl

theorem evictLoop_cons_none (f : K → V → Bool) (m : RandMap K V) (r : Nat)
    (rest : List Nat) (h : m.GetRandom r = none) :
    evictLoop f m (r :: rest) = ⟨m, 0, 0, [], []⟩ := by
  unfold evictLoop
  rw [h]

theorem evictLoop_cons_valid (f : K → V → Bool) (m : RandMap K V) (r : Nat)
    (rest : List Nat) (ck : K) (cv : V) (h : m.GetRandom r = some (ck, cv))
    (hf : f ck cv = true) :
    evictLoop f m (r :: rest) =
      ⟨(evictLoop f m rest).m, (evictLoop f m rest).draws + 1,
        (evictLoop f m rest).fcalls + 1, (ck, cv) :: (evictLoop f m rest).drawn,
        (evictLoop f m rest).deleted⟩ := by
  simp [evictLoop, h, hf]

theorem evictLoop_cons_invalid (f : K → V → Bool) (m : RandMap K V) (r : Nat)
    (rest : List Nat) (ck : K) (cv : V) (h : m.GetRandom r = some (ck, cv))
    (hf : f ck cv = false) :
    evictLoop f m (r :: rest) =
      ⟨(evictLoop f (m.Delete ck) rest).m, (evictLoop f (m.Delete ck) rest).draws + 1,
        (evictLoop f (m.Delete ck) rest).fcalls + 1,
        (ck, cv) :: (evictLoop f (m.Delete ck) rest).drawn,
        ck :: (evictLoop f (m.Delete ck) rest).deleted⟩ := by
  simp [evictLoop, h, hf]

theorem evictLoop_draws_le (f : K → V → Bool) (m : RandMap K V) (rs : List Nat) :
    (evictLoop f m rs).draws ≤ rs.length := by
  induction rs generalizing m with
  | nil => exact Nat.le_refl 0
  | cons r rest ih =>
    cases hg : m.GetRandom r with
    | none =>
      rw [evictLoop_cons_none f m r rest hg]
      exact Nat.zero_le _
    | some p =>
      obtain ⟨ck, cv⟩ := p
      cases hf : f ck cv with
      | true =>
        rw [evictLoop_cons_valid f m r rest ck cv hg hf]
        exact Nat.succ_le_succ (ih m)
      | false =>
        rw [evictLoop_cons_invalid f m r rest ck cv hg hf]
        exact Nat.succ_le_succ (ih (m.Delete ck))

theorem evictLoop_fcalls_eq (f : K → V → Bool) (m : RandMap K V) (rs : List Nat) :
    (evictLoop f m rs).fcalls = (evictLoop f m rs).draws := by
  induction rs generalizing m with
  | nil => rfl
  | cons r rest ih =>
    cases hg : m.GetRandom r with
    | none => rw [evictLoop_cons_none f m r rest hg]
    | some p =>
      obtain ⟨ck, cv⟩ := p
      cases hf : f ck cv with
      | true =>
        rw [evictLoop_cons_valid f m r rest ck cv hg hf]
        dsimp only
        rw [ih m]
      | false =>
        rw [evictLoop_cons_invalid f m r rest ck cv hg hf]
        dsimp only
        rw [ih (m.Delete ck)]

theorem evictLoop_drawn_length (f : K → V → Bool) (m : RandMap K V) (rs : List Nat) :
    (evictLoop f m rs).drawn.length = (evictLoop f m rs).draws := by
  induction rs generalizing m with
  | nil => rfl
  | cons r rest ih =>
    cases hg : m.GetRandom r with
    | none =>
      rw [evictLoop_cons_none f m r rest hg]
      rfl
    | some p =>
      obtain ⟨ck, cv⟩ := p
      cases hf : f ck cv with
      | true =>
        rw [evictLoop_cons_valid f m r rest ck cv hg hf]
        dsimp only [List.length_cons]
        rw [ih m]
      | false =>
        rw [evictLoop_cons_invalid f m r rest ck cv hg hf]
        dsimp only [List.length_cons]
        rw [ih (m.Delete ck)]

theorem evictLoop_deleted_eq (f : K → V → Bool) (m : RandMap K V) (rs : List Nat) :
    (evictLoop f m rs).deleted =
      ((evictLoop f m rs).drawn.filter (fun p => !f p.1 p.2)).map Prod.fst := by
  induction rs generalizing m with
  | nil => rfl
  | cons r rest ih =>
    cases hg : m.GetRandom r with
    | none =>
      rw [evictLoop_cons_none f m r rest hg]
      rfl
    | some p =>
      obtain ⟨ck, cv⟩ := p
      cases hf : f ck cv with
      | true =>
        rw [evictLoop_cons_valid f m r rest ck cv hg hf]
        dsimp only
        rw [List.filter_cons]
        simp only [hf, Bool.not_true]
        exact ih m
      | false =>
        rw [evictLoop_cons_invalid f m r rest ck cv hg hf]
        dsimp only
        rw [List.filter_cons]
        simp only [hf, Bool.not_false, if_pos]
        dsimp only [List.map_cons]
        rw [ih (m.Delete ck)]

theorem evictLoop_kv_mono (f : K → V → Bool) (m : RandMap K V) (rs : List Nat)
    (k : K) (w : V) (hw : (evictLoop f m rs).m.kv k = some w) :
    m.kv k = some w := by
  induction rs generalizing m with
  | nil => exact hw
  | cons r rest ih =>
    cases hg : m.GetRandom r with
    | none =>
      rw [evictLoop_cons_none f m r rest hg] at hw
      exact hw
    | some p =>
      obtain ⟨ck, cv⟩ := p
      cases hf : f ck cv with
      | true =>
        rw [evictLoop_cons_valid f m r rest ck cv hg hf] at hw
        exact ih m hw
      | false =>
        rw [evictLoop_cons_invalid f m r rest ck cv hg hf] at hw
        exact kv_Delete_mono m ck k w (ih (m.Delete ck) hw)

theorem inv_evictLoop (f : K → V → Bool) (m : RandMap K V) (rs : List Nat)
    (h : RandMapInv m) : RandMapInv (evictLoop f m rs).m := by
  induction rs generalizing m with
  | nil => exact h
  | cons r rest ih =>
    cases hg : m.GetRandom r with
    | none =>
      rw [evictLoop_cons_none f m r rest hg]
      exact h
    | some p =>
      obtain ⟨ck, cv⟩ := p
      cases hf : f ck cv with
      | true =>
        rw [evictLoop_cons_valid f m r rest ck cv hg hf]
        exact ih m h
      | false =>
        rw [evictLoop_cons_invalid f m r rest ck cv hg hf]
        exact ih (m.Delete ck) (inv_Delete m ck h)

theorem evictLoop_early_stop (f : K → V → Bool) (m : RandMap K V) (rs : List Nat)
    (h : RandMapInv m) (hlt : (evictLoop f m rs).draws < rs.length) :
    (evictLoop f m rs).m.len = 0 := by
  induction rs generalizing m with
  | nil => exact absurd hlt (by simp)
  | cons r rest ih =>
    cases hg : m.GetRandom r with
    | none =>
      rw [evictLoop_cons_none f m r rest hg]
      exact (GetRandom_none_iff m h r).mp hg
    | some p =>
      obtain ⟨ck, cv⟩ := p
      cases hf : f ck cv with
      | true =>
        rw [evictLoop_cons_valid f m r rest ck cv hg hf]
        rw [evictLoop_cons_valid f m r rest ck cv hg hf] at hlt
        exact ih m h (Nat.lt_of_succ_lt_succ hlt)
      | false =>
        rw [evictLoop_cons_invalid f m r rest ck cv hg hf]
        rw [evictLoop_cons_invalid f m r rest ck cv hg hf] at hlt
        exact ih (m.Delete ck) (inv_Delete m ck h) (Nat.lt_of_succ_lt_succ hlt)

/-! ### SetLocked characterization -/

theorem SetLocked_update (c : Cache K V) (m : RandMap K V) (key : K) (value : V)
    (rs : List Nat) (w : V) (h : m.kv key = some w) :
    c.SetLocked m key value rs = ⟨m.Set key value, 0, 0, [], []⟩ := by
  have hlen : (m.Set key value).len = m.len := by
    rw [Set_present m key value w h]
  unfold Cache.SetLocked
  dsimp only [RandMap.Len]
  rw [hlen]
  simp

theorem SetLocked_insert (c : Cache K V) (m : RandMap K V) (key : K) (value : V)
    (rs : List Nat) (h : m.kv key = none) :
    c.SetLocked m key value rs = evictLoop c.f (m.Set key value) rs := by
  have hlen : (m.Set key value).len = m.len + 1 := by
    rw [Set_absent m key value h]
  unfold Cache.SetLocked
  dsimp only [RandMap.Len]
  rw [hlen]
  simp

/-! ### Lookup after a history of operations -/

theorem kv_applyOps (ops : List (MapOp K V)) (m : RandMap K V) (h : RandMapInv m)
    (k : K) :
    (applyOps ops m).kv k =
      ops.foldl
        (fun acc op =>
          match op with
          | MapOp.set k2 v => if k2 = k then some v else acc
          | MapOp.del k2 => if k2 = k then none else acc)
        (m.kv k) := by
  induction ops generalizing m with
  | nil => rfl
  | cons op rest ih =>
    cases op with
    | set k2 v =>
      simp only [applyOps, List.foldl_cons]
      have h2 := ih (m.Set k2 v) (inv_Set m k2 v h)
      simp only [applyOps] at h2
      dsimp only [applyOp]
      rw [h2]
      congr 1
      rw [kv_Set]
      by_cases hk : k = k2
      · subst hk
        rfl
      · rw [if_neg hk, if_neg (fun he => hk he.symm)]
    | del k2 =>
      simp only [applyOps, List.foldl_cons]
      have h2 := ih (m.Delete k2) (inv_Delete m k2 h)
      simp only [applyOps] at h2
      dsimp only [applyOp]
      rw [h2]
      congr 1
      rw [kv_Delete_inv m h k2 k]
      by_cases hk : k = k2
      · subst hk
        rfl
      · rw [if_neg hk, if_neg (fun he => hk he.symm)]

/-! ### Cardinalities from the invariant -/

theorem inv_card (m : RandMap K V) (h : RandMapInv m) :
    {i : Nat | (m.ik i).isSome}.ncard = m.len ∧
    {k : K | (m.ki k).isSome}.ncard = m.len ∧
    {k : K | (m.kv k).isSome}.ncard = m.len := by
  obtain ⟨h1, h2, h3, h4⟩ := h
  have hikset : {i : Nat | (m.ik i).isSome} = ↑(Finset.range m.len) := by
    ext i
    simp only [Set.mem_setOf_eq, Finset.coe_range, Set.mem_Iio]
    exact h1 i
  have hikcard : {i : Nat | (m.ik i).isSome}.ncard = m.len := by
    rw [hikset, Set.ncard_coe_Finset, Finset.card_range]
  have hkiset : {k : K | (m.ki k).isSome} =
      (fun i => (m.ik i).getD default) '' {i : Nat | (m.ik i).isSome} := by
    ext k
    simp only [Set.mem_setOf_eq, Set.mem_image]
    constructor
    · intro hk
      obtain ⟨i, hi⟩ := Option.isSome_iff_exists.mp hk
      have hik : m.ik i = some k := h3 k i hi
      exact ⟨i, by rw [hik]; rfl, by rw [hik]; rfl⟩
    · rintro ⟨i, hi, hig⟩
      obtain ⟨k0, hk0⟩ := Option.isSome_iff_exists.mp hi
      rw [hk0] at hig
      simp only [Option.getD_some] at hig
      subst hig
      rw [h2 i k0 hk0]
      rfl
  have hinj : Set.InjOn (fun i => (m.ik i).getD default)
      {i : Nat | (m.ik i).isSome} := by
    intro i1 hi1 i2 hi2 he
    simp only [Set.mem_setOf_eq] at hi1 hi2
    obtain ⟨k1, hk1⟩ := Option.isSome_iff_exists.mp hi1
    obtain ⟨k2, hk2⟩ := Option.isSome_iff_exists.mp hi2
    simp only [hk1, hk2, Option.getD_some] at he
    subst he
    have e1 := h2 i1 k1 hk1
    have e2 := h2 i2 k1 hk2
    rw [e1] at e2
    injection e2
  have hkicard : {k : K | (m.ki k).isSome}.ncard = m.len := by
    rw [hkiset, Set.ncard_image_of_injOn hinj, hikcard]
  have hkvset : {k : K | (m.kv k).isSome} = {k : K | (m.ki k).isSome} := by
    ext k
    exact h4 k
  exact ⟨hikcard, hkicard, by rw [hkvset]; exact hkicard⟩

/-! ## Claim theorems -/

/-- C7: after any finite sequence of `Set`/`Delete` operations starting from
the empty map, `Get k` returns the most recently set value for `k` unless a
later delete removed it, and reports not found when `k` was never set or its
last operation was a delete (`specLookup` states exactly this reading of the
history). -/
theorem get_eq_specLookup (ops : List (MapOp K V)) (k : K) :
    (applyOps ops (RandMap.Make : RandMap K V)).Get k = specLookup ops k := by
  have h := kv_applyOps ops RandMap.Make inv_Make k
  simp only [RandMap.Get]
  rw [h]
  rfl

/-- C2: after every finite sequence of `Set`/`Delete` operations starting
from an empty or wrapped state, the index invariants hold — `ik` and `ki`
are exact inverse bijections, the slots in use are exactly `{0, …, len-1}`,
and the three mappings all have cardinality `len`. -/
theorem index_invariant_reachable (init : List (K × V)) (ops : List (MapOp K V))
    (hnd : (init.map Prod.fst).Nodup) :
    RandMapInv (applyOps ops (RandMap.Wrap init)) ∧
    {i : Nat | ((applyOps ops (RandMap.Wrap init)).ik i).isSome}.ncard =
      (applyOps ops (RandMap.Wrap init)).len ∧
    {k : K | ((applyOps ops (RandMap.Wrap init)).ki k).isSome}.ncard =
      (applyOps ops (RandMap.Wrap init)).len ∧
    {k : K | ((applyOps ops (RandMap.Wrap init)).kv k).isSome}.ncard =
      (applyOps ops (RandMap.Wrap init)).len := by
  have hinv : RandMapInv (applyOps ops (RandMap.Wrap init)) :=
    inv_applyOps ops _ (inv_Wrap init)
  have hcard := inv_card _ hinv
  exact ⟨hinv, hcard.1, hcard.2.1, hcard.2.2⟩

/-- Witness for C2 at a concrete wrapped map and operation sequence. -/
theorem index_invariant_reachable_witness :
    (([((1 : Nat), (10 : Int)), (2, 20)].map Prod.fst).Nodup) ∧
    RandMapInv (applyOps [MapOp.del 1, MapOp.set 3 30]
      (RandMap.Wrap [((1 : Nat), (10 : Int)), (2, 20)])) :=
  ⟨by decide, (index_invariant_reachable [((1 : Nat), (10 : Int)), (2, 20)]
    [MapOp.del 1, MapOp.set 3 30] (by decide)).1⟩

/-- C6: deleting an absent key is a no-op on the whole state; deleting a
present key decreases `len` by one, makes the key unretrievable, and leaves
every other key's binding unchanged. -/
theorem delete_frame (m : RandMap K V) (h : RandMapInv m) (key : K) :
    (m.Get key = none → m.Delete key = m) ∧
    (∀ v, m.Get key = some v →
      0 < m.len ∧ (m.Delete key).len = m.len - 1 ∧
      (m.Delete key).Get key = none ∧
      ∀ k2, k2 ≠ key → (m.Delete key).Get k2 = m.Get k2) := by
  constructor
  · intro hn
    simp only [RandMap.Get] at hn
    have hki : m.ki key = none := by
      cases hc : m.ki key with
      | none => rfl
      | some d =>
        have hs := (h.2.2.2 key).mpr (by rw [hc]; rfl)
        rw [hn] at hs
        exact absurd hs (by simp)
    exact Delete_absent m key hki
  · intro v hv
    simp only [RandMap.Get] at hv
    obtain ⟨d, hd⟩ := ki_of_kv m h key v hv
    have hikd := h.2.2.1 key d hd
    have hdlt : d < m.len := (h.1 d).mp (by rw [hikd]; rfl)
    have hkvs : (m.kv key).isSome = true := by rw [hv]; rfl
    refine ⟨by omega, ?_, ?_, ?_⟩
    · rw [Delete_present m key d hd]
      split <;> simp [hkvs]
    · simp only [RandMap.Get]
      rw [kv_Delete_inv m h key key, if_pos rfl]
    · intro k2 hk2
      simp only [RandMap.Get]
      rw [kv_Delete_inv m h key k2, if_neg hk2]

/-- Witness for C6 on a concrete reachable map, deleting a non-last slot. -/
theorem delete_frame_witness :
    (applyOps [MapOp.set 1 10, MapOp.set 2 20, MapOp.set 3 30]
        (RandMap.Make : RandMap Nat Int)).Get 1 = some 10 ∧
    ((applyOps [MapOp.set 1 10, MapOp.set 2 20, MapOp.set 3 30]
        (RandMap.Make : RandMap Nat Int)).Delete 1).Get 1 = none ∧
    ((applyOps [MapOp.set 1 10, MapOp.set 2 20, MapOp.set 3 30]
        (RandMap.Make : RandMap Nat Int)).Delete 1).Get 3 =
      (applyOps [MapOp.set 1 10, MapOp.set 2 20, MapOp.set 3 30]
        (RandMap.Make : RandMap Nat Int)).Get 3 :=
  ⟨by decide,
    ((delete_frame _ (inv_reachable [MapOp.set 1 10, MapOp.set 2 20, MapOp.set 3 30])
      1).2 10 (by decide)).2.2.1,
    ((delete_frame _ (inv_reachable [MapOp.set 1 10, MapOp.set 2 20, MapOp.set 3 30])
      1).2 10 (by decide)).2.2.2 3 (by decide)⟩

/-- C8: `GetRandom` reports not found exactly on the empty map — on an empty
map every draw yields `none`, and on a non-empty map every legal draw
`r < len` yields some present entry together with its stored value. -/
theorem getRandom_found_iff (m : RandMap K V) (h : RandMapInv m) :
    (m.len = 0 → ∀ r, m.GetRandom r = none) ∧
    (∀ r, r < m.len → ∃ k v, m.GetRandom r = some (k, v) ∧ m.Get k = some v) := by
  constructor
  · intro h0 r
    exact GetRandom_of_empty m r h0
  · intro r hr
    obtain ⟨k, v, hg, -, hv⟩ := GetRandom_of_inv m h r (by omega)
    exact ⟨k, v, hg, hv⟩

/-- Witness for C8 on a concrete singleton map. -/
theorem getRandom_found_iff_witness :
    0 < (applyOps [MapOp.set 5 50] (RandMap.Make : RandMap Nat Int)).len ∧
    ∃ k v,
      (applyOps [MapOp.set 5 50] (RandMap.Make : RandMap Nat Int)).GetRandom 0 =
        some (k, v) ∧
      (applyOps [MapOp.set 5 50] (RandMap.Make : RandMap Nat Int)).Get k = some v :=
  ⟨by decide,
    (getRandom_found_iff _ (inv_reachable [MapOp.set 5 50])).2 0 (by decide)⟩

/-- C9: there is a cache state, key, value and outcome of the random draws
such that `Set` inserts a genuinely new key (it was absent before) and the
eviction pass inside the same call samples and deletes it, so the key is not
found immediately after the insertion. -/
theorem insert_may_be_immediately_evicted :
    (Cache.New 2 (fun (_ : Nat) (v : Int) => decide (0 < v))).Get 1 = none ∧
    ((Cache.New 2 (fun (_ : Nat) (v : Int) => decide (0 < v))).Set 1 (-5)
        [0, 0]).Get 1 = none ∧
    ((Cache.New 2 (fun (_ : Nat) (v : Int) => decide (0 < v))).Set 1 (-5)
        [0, 0]).Len = 0 :=
  ⟨rfl, rfl, rfl⟩

/-- C10: `New` clamps the eviction fan-out from below to `MinN = 2` without
reporting any error; for `n < 2` the stored fan-out is exactly 2, and the
rest of the construction (empty map, stored predicate) is unaffected. -/
theorem new_clamps (n : Int) (f : K → V → Bool) :
    (Cache.New n f).n = max n MinN ∧ MinN = 2 ∧
    MinN ≤ (Cache.New n f).n ∧
    (n < MinN → (Cache.New n f).n = MinN) ∧
    (Cache.New n f).m = RandMap.Make ∧ (Cache.New n f).f = f := by
  refine ⟨rfl, rfl, le_max_right n MinN, fun h => ?_, rfl, rfl⟩
  show max n MinN = MinN
  exact max_eq_right h.le

/-- Witness for C10 at a negative fan-out. -/
theorem new_clamps_witness :
    ((-7 : Int) < MinN) ∧
    (Cache.New (-7) (fun (_ : Nat) (_ : Int) => true)).n = MinN :=
  ⟨by decide, (new_clamps (-7) (fun _ _ => true)).2.2.2.1 (by decide)⟩

/-- C1: on every non-empty state reachable by an arbitrary
insertion/deletion history, `GetRandom` resolves a uniform draw in
`[0, len)` through the slot-key mapping, and each present key is produced
by exactly one of the `len` equally likely draws — so each present entry is
selected with probability `1/len`, independent of the history. -/
theorem getRandom_uniform (ops : List (MapOp K V)) (k : K)
    (hk : (((applyOps ops (RandMap.Make : RandMap K V)).Get k)).isSome) :
    0 < (applyOps ops (RandMap.Make : RandMap K V)).len ∧
    ((Finset.range (applyOps ops (RandMap.Make : RandMap K V)).len).filter
        (fun r => ((applyOps ops (RandMap.Make : RandMap K V)).GetRandom r).map
          Prod.fst = some k)).card = 1 := by
  set m := applyOps ops (RandMap.Make : RandMap K V) with hm
  have hinv := inv_reachable ops
  rw [← hm] at hinv
  have hks : (m.ki k).isSome = true := (hinv.2.2.2 k).mp hk
  obtain ⟨d, hd⟩ := Option.isSome_iff_exists.mp hks
  have hikd : m.ik d = some k := hinv.2.2.1 k d hd
  have hdlt : d < m.len := (hinv.1 d).mp (by rw [hikd]; rfl)
  refine ⟨by omega, ?_⟩
  have hsingle : (Finset.range m.len).filter
      (fun r => (m.GetRandom r).map Prod.fst = some k) = {d} := by
    apply Finset.eq_singleton_iff_unique_mem.mpr
    constructor
    · rw [Finset.mem_filter]
      refine ⟨Finset.mem_range.mpr hdlt, ?_⟩
      obtain ⟨k2, v2, hg, hik2, -⟩ := GetRandom_of_inv m hinv d (by omega)
      rw [Nat.mod_eq_of_lt hdlt, hikd] at hik2
      injection hik2 with he
      rw [hg, ← he]
      rfl
    · intro r hr
      rw [Finset.mem_filter, Finset.mem_range] at hr
      obtain ⟨hrlt, hrk⟩ := hr
      obtain ⟨k2, v2, hg, hik2, -⟩ := GetRandom_of_inv m hinv r (by omega)
      rw [Nat.mod_eq_of_lt hrlt] at hik2
      rw [hg] at hrk
      simp at hrk
      rw [hrk] at hik2
      have hr2 := hinv.2.1 r k hik2
      rw [hd] at hr2
      injection hr2 with he
      exact he.symm
  rw [hsingle]
  rfl

/-- Witness for C1: on a concrete history with a deletion, the present key 2
is hit by exactly one of the `len` draws. -/
theorem getRandom_uniform_witness :
    ((applyOps [MapOp.set 1 10, MapOp.set 2 20, MapOp.set 3 30, MapOp.del 1]
        (RandMap.Make : RandMap Nat Int)).Get 2).isSome = true ∧
    (0 < (applyOps [MapOp.set 1 10, MapOp.set 2 20, MapOp.set 3 30, MapOp.del 1]
        (RandMap.Make : RandMap Nat Int)).len ∧
      ((Finset.range (applyOps [MapOp.set 1 10, MapOp.set 2 20, MapOp.set 3 30,
            MapOp.del 1] (RandMap.Make : RandMap Nat Int)).len).filter
          (fun r => ((applyOps [MapOp.set 1 10, MapOp.set 2 20, MapOp.set 3 30,
            MapOp.del 1] (RandMap.Make : RandMap Nat Int)).GetRandom r).map
            Prod.fst = some 2)).card = 1) :=
  ⟨by decide,
    getRandom_uniform [MapOp.set 1 10, MapOp.set 2 20, MapOp.set 3 30, MapOp.del 1]
      2 (by decide)⟩

/-- C3: `SetLocked` on a present key only overwrites the value — no draw is
made, the validity predicate is never invoked and nothing is deleted; on an
absent key it first inserts and then runs the eviction pass: up to
`rs.length` draws (`rs.length = n` at call sites), one predicate call per
draw, deleting exactly the drawn entries the predicate rejects, and, on a
well-formed map, stopping before exhausting the draws only when the map has
become empty. -/
theorem set_insert_vs_update (c : Cache K V) (m : RandMap K V) (key : K)
    (value : V) (rs : List Nat) :
    (∀ w, m.Get key = some w →
      c.SetLocked m key value rs = ⟨m.Set key value, 0, 0, [], []⟩) ∧
    (m.Get key = none →
      c.SetLocked m key value rs = evictLoop c.f (m.Set key value) rs ∧
      (c.SetLocked m key value rs).draws ≤ rs.length ∧
      (c.SetLocked m key value rs).fcalls = (c.SetLocked m key value rs).draws ∧
      (c.SetLocked m key value rs).deleted =
        ((c.SetLocked m key value rs).drawn.filter
          (fun p => !c.f p.1 p.2)).map Prod.fst ∧
      (RandMapInv m → (c.SetLocked m key value rs).draws < rs.length →
        (c.SetLocked m key value rs).m.len = 0)) := by
  constructor
  · intro w hw
    exact SetLocked_update c m key value rs w hw
  · intro hn
    have he := SetLocked_insert c m key value rs hn
    rw [he]
    refine ⟨rfl, evictLoop_draws_le _ _ _, evictLoop_fcalls_eq _ _ _,
      evictLoop_deleted_eq _ _ _, ?_⟩
    intro hinv hlt
    exact evictLoop_early_stop c.f (m.Set key value) rs (inv_Set m key value hinv) hlt

/-- Witness for C3: a concrete update makes no draws, and a concrete
insertion makes at most `rs.length` draws. -/
theorem set_insert_vs_update_witness :
    (applyOps [MapOp.set 1 10] (RandMap.Make : RandMap Nat Int)).Get 1 =
      some 10 ∧
    (Cache.mk (applyOps [MapOp.set 1 10] RandMap.Make)
        (fun (_ : Nat) (v : Int) => decide (0 < v)) 2).SetLocked
      (applyOps [MapOp.set 1 10] RandMap.Make) 1 99 [0, 0] =
      ⟨(applyOps [MapOp.set 1 10] (RandMap.Make : RandMap Nat Int)).Set 1 99,
        0, 0, [], []⟩ ∧
    (applyOps [MapOp.set 1 10] (RandMap.Make : RandMap Nat Int)).Get 2 = none ∧
    ((Cache.mk (applyOps [MapOp.set 1 10] RandMap.Make)
        (fun (_ : Nat) (v : Int) => decide (0 < v)) 2).SetLocked
      (applyOps [MapOp.set 1 10] RandMap.Make) 2 5 [0, 0]).draws ≤
      ([0, 0] : List Nat).length :=
  ⟨by decide,
    (set_insert_vs_update
      (Cache.mk (applyOps [MapOp.set 1 10] RandMap.Make)
        (fun (_ : Nat) (v : Int) => decide (0 < v)) 2)
      (applyOps [MapOp.set 1 10] RandMap.Make) 1 99 [0, 0]).1 10 (by decide),
    by decide,
    ((set_insert_vs_update
      (Cache.mk (applyOps [MapOp.set 1 10] RandMap.Make)
        (fun (_ : Nat) (v : Int) => decide (0 < v)) 2)
      (applyOps [MapOp.set 1 10] RandMap.Make) 2 5 [0, 0]).2 (by decide)).2.1⟩

/-- C4: `GetValidOrDelete` in one step returns not-found on an absent key
leaving the cache unchanged; returns the stored value leaving the cache
unchanged when the predicate accepts; and when the predicate rejects,
deletes the key and reports not found, so a subsequent `Get` on the same
key reports not found while every other key is untouched. -/
theorem getValidOrDelete_atomic (c : Cache K V) (key : K) (h : RandMapInv c.m) :
    (c.m.Get key = none → c.GetValidOrDelete key = (none, c)) ∧
    (∀ v, c.m.Get key = some v → c.f key v = true →
      c.GetValidOrDelete key = (some v, c)) ∧
    (∀ v, c.m.Get key = some v → c.f key v = false →
      c.GetValidOrDelete key = (none, { c with m := c.m.Delete key }) ∧
      (c.GetValidOrDelete key).2.Get key = none ∧
      (∀ k2, k2 ≠ key → (c.GetValidOrDelete key).2.Get k2 = c.Get k2)) := by
  refine ⟨?_, ?_, ?_⟩
  · intro hn
    unfold Cache.GetValidOrDelete
    rw [hn]
  · intro v hv hf
    unfold Cache.GetValidOrDelete
    rw [hv]
    dsimp only
    rw [if_pos hf]
  · intro v hv hf
    have heq : c.GetValidOrDelete key = (none, { c with m := c.m.Delete key }) := by
      unfold Cache.GetValidOrDelete
      rw [hv]
      simp [hf]
    refine ⟨heq, ?_, ?_⟩
    · rw [heq]
      show (c.m.Delete key).Get key = none
      simp only [RandMap.Get]
      rw [kv_Delete_inv c.m h key key, if_pos rfl]
    · intro k2 hk2
      rw [heq]
      show (c.m.Delete key).Get k2 = c.Get k2
      simp only [RandMap.Get, Cache.Get]
      rw [kv_Delete_inv c.m h key k2, if_neg hk2]

/-- Witness for C4 on a concrete cache holding an invalid entry. -/
theorem getValidOrDelete_atomic_witness :
    (Cache.mk (applyOps [MapOp.set 1 (-7), MapOp.set 2 5] RandMap.Make)
        (fun (_ : Nat) (v : Int) => decide (0 < v)) 2).m.Get 1 = some (-7) ∧
    (fun (_ : Nat) (v : Int) => decide (0 < v)) 1 (-7) = false ∧
    ((Cache.mk (applyOps [MapOp.set 1 (-7), MapOp.set 2 5] RandMap.Make)
        (fun (_ : Nat) (v : Int) => decide (0 < v)) 2).GetValidOrDelete
        1).2.Get 1 = none ∧
    ((Cache.mk (applyOps [MapOp.set 1 (-7), MapOp.set 2 5] RandMap.Make)
        (fun (_ : Nat) (v : Int) => decide (0 < v)) 2).GetValidOrDelete
        1).2.Get 2 =
      (Cache.mk (applyOps [MapOp.set 1 (-7), MapOp.set 2 5] RandMap.Make)
        (fun (_ : Nat) (v : Int) => decide (0 < v)) 2).Get 2 :=
  ⟨by decide, by decide,
    (((getValidOrDelete_atomic
      (Cache.mk (applyOps [MapOp.set 1 (-7), MapOp.set 2 5] RandMap.Make)
        (fun (_ : Nat) (v : Int) => decide (0 < v)) 2) 1
      (inv_reachable [MapOp.set 1 (-7), MapOp.set 2 5])).2.2 (-7)
      (by decide) (by decide)).2.1),
    (((getValidOrDelete_atomic
      (Cache.mk (applyOps [MapOp.set 1 (-7), MapOp.set 2 5] RandMap.Make)
        (fun (_ : Nat) (v : Int) => decide (0 < v)) 2) 1
      (inv_reachable [MapOp.set 1 (-7), MapOp.set 2 5])).2.2 (-7)
      (by decide) (by decide)).2.2 2 (by decide))⟩

/-- C5: `GetOrCreate` returns the stored value without invoking the factory
when the key is present and valid; when absent or invalid it invokes the
factory exactly once and stores its value through the `SetLocked` insertion
path — running the eviction pass only on a true insertion (an
invalid-update stays a plain overwrite); any value resident at the key
afterwards is the returned one; and the spec's three-step scenario with
predicate `0 < v` holds verbatim. -/
theorem getOrCreate_correct (c : Cache K V) (key : K) (newVal : V)
    (rs : List Nat) :
    (∀ v, c.m.Get key = some v → c.f key v = true →
      c.GetOrCreate key newVal rs = (v, c, 0)) ∧
    (c.m.Get key = none →
      c.GetOrCreate key newVal rs =
        (newVal, { c with m := (c.SetLocked c.m key newVal rs).m }, 1)) ∧
    (∀ v, c.m.Get key = some v → c.f key v = false →
      c.GetOrCreate key newVal rs =
        (newVal, { c with m := c.m.Set key newVal }, 1)) ∧
    (∀ w, (c.GetOrCreate key newVal rs).2.1.Get key = some w →
      w = (c.GetOrCreate key newVal rs).1) ∧
    (let c0 := Cache.New 2 (fun (_ : String) (v : Int) => decide (0 < v));
     let s1 := c0.GetOrCreate "x" 10 [0, 0];
     let s2 := s1.2.1.GetOrCreate "x" 20 [0, 0];
     let c2 : Cache String Int := { s1.2.1 with m := s1.2.1.m.Set "x" (-1) };
     let s3 := c2.GetOrCreate "x" 30 [0, 0];
     s1.1 = 10 ∧ s1.2.2 = 1 ∧ s1.2.1.Get "x" = some 10 ∧
     s2.1 = 10 ∧ s2.2.2 = 0 ∧
     s3.1 = 30 ∧ s3.2.2 = 1 ∧ s3.2.1.Get "x" = some 30) := by
  refine ⟨?_, ?_, ?_, ?_, ?_⟩
  · intro v hv hf
    unfold Cache.GetOrCreate
    rw [hv]
    dsimp only
    rw [if_pos hf]
  · intro hn
    unfold Cache.GetOrCreate
    rw [hn]
  · intro v hv hf
    have hupd := SetLocked_update c c.m key newVal rs v hv
    unfold Cache.GetOrCreate
    rw [hv]
    simp [hf, hupd]
  · intro w hw
    cases hg : c.m.Get key with
    | none =>
      have hres : c.GetOrCreate key newVal rs =
          (newVal, { c with m := (c.SetLocked c.m key newVal rs).m }, 1) := by
        unfold Cache.GetOrCreate
        rw [hg]
      rw [hres] at hw ⊢
      have hw2 : (c.SetLocked c.m key newVal rs).m.kv key = some w := hw
      rw [SetLocked_insert c c.m key newVal rs hg] at hw2
      have hmono := evictLoop_kv_mono c.f (c.m.Set key newVal) rs key w hw2
      rw [kv_Set, if_pos rfl] at hmono
      injection hmono with he
      exact he.symm
    | some v =>
      cases hf : c.f key v with
      | true =>
        have hres : c.GetOrCreate key newVal rs = (v, c, 0) := by
          unfold Cache.GetOrCreate
          rw [hg]
          dsimp only
          rw [if_pos hf]
        rw [hres] at hw ⊢
        have hw2 : c.m.Get key = some w := hw
        rw [hg] at hw2
        injection hw2 with he
        exact he.symm
      | false =>
        have hupd := SetLocked_update c c.m key newVal rs v hg
        have hres : c.GetOrCreate key newVal rs =
            (newVal, { c with m := c.m.Set key newVal }, 1) := by
          unfold Cache.GetOrCreate
          rw [hg]
          simp [hf, hupd]
        rw [hres] at hw ⊢
        have hw2 : (c.m.Set key newVal).kv key = some w := hw
        rw [kv_Set, if_pos rfl] at hw2
        injection hw2 with he
        exact he.symm
  · exact ⟨rfl, rfl, rfl, rfl, rfl, rfl, rfl, rfl⟩

/-- Witness for C5 on concrete caches exercising the present-and-valid and
the absent branches. -/
theorem getOrCreate_correct_witness :
    (Cache.mk (applyOps [MapOp.set 1 10] RandMap.Make)
        (fun (_ : Nat) (v : Int) => decide (0 < v)) 2).m.Get 1 = some 10 ∧
    (fun (_ : Nat) (v : Int) => decide (0 < v)) 1 10 = true ∧
    (Cache.mk (applyOps [MapOp.set 1 10] RandMap.Make)
        (fun (_ : Nat) (v : Int) => decide (0 < v)) 2).GetOrCreate 1 99 [0, 0] =
      (10, Cache.mk (applyOps [MapOp.set 1 10] RandMap.Make)
        (fun (_ : Nat) (v : Int) => decide (0 < v)) 2, 0) :=
  ⟨by decide, by decide,
    (getOrCreate_correct
      (Cache.mk (applyOps [MapOp.set 1 10] RandMap.Make)
        (fun (_ : Nat) (v : Int) => decide (0 < v)) 2) 1 99 [0, 0]).1 10
      (by decide) (by decide)⟩
